import Mathlib

/-!
Traffic-signal ranking over MPI (`src/main.cpp`).

A shallow embedding of the single translation unit `src/main.cpp`, and the
properties of it that were checked.

Modelling choices:

* Machine `int`s are modelled as `Int`. `std::stoi` can only return values in
  the 32-bit range, and the one arithmetic update of the program
  (`local_traffic_counts[...] += car_count`) is reduced with `wrapInt`.
* Text is a list of `Char`. The only characters the program tells apart are
  ASCII (comma, line feed, white space, sign, digits), and the order of
  strings by character code is the order of their UTF-8 bytes.
* `std::map<string, vector<TrafficSignal>>` is an association list kept
  strictly ascending in the key for `operator<` on strings.
* A thrown and never caught exception, an out-of-bounds element access and a
  failed file open are explicit results (`Outcome`).
* Every participant runs the same text. The model gives each participant's
  local data and its sequence of collective calls as functions of its rank,
  and gives `MPI_Gather` its documented meaning: the send buffers put one
  after the other in rank order. Only `num_groups`, `group_size`, `light_id`
  and `car_count` are ever passed to `MPI_Bcast`, so no broadcast writes into
  `grouped_data`.
* With two or more participants and at least one reading the collective calls
  of the master and of the others do not match (`collectiveOps_mismatch`), a
  run the MPI standard leaves undefined. The model follows each participant's
  own text all the same, as an implementation that sends small broadcasts
  eagerly does; results stated for `size ≥ 2` are results about that reading.
-/

namespace TrafficMPI

/-! ## Data model -/

/-- The record `struct TrafficSignal` (lines 12-16). -/
structure TrafficSignal where
  light_id : Int
  car_count : Int
  time_stamp : String
  deriving DecidableEq, Repr

/-- The contents of `std::map<string, vector<TrafficSignal>>` in iteration
order (line 28). -/
abbrev GroupedData := List (String × List TrafficSignal)

/-- Smallest value of a 32-bit `int`. -/
def INT_MIN : Int := -2147483648

/-- Largest value of a 32-bit `int`. -/
def INT_MAX : Int := 2147483647

/-- Reduction of an integer to the 32-bit two's-complement range. -/
def wrapInt (x : Int) : Int := (x + 2147483648) % 4294967296 - 2147483648

/-! ## Ingestion (lines 31-67) -/

/-- The two exceptions `std::stoi` can throw. -/
inductive StoiError where
  | invalid_argument
  | out_of_range
  deriving DecidableEq, Repr

deriving instance DecidableEq for Except

/-- The C-locale `isspace`: space, `\t`, `\n`, `\v`, `\f`, `\r`. -/
def isspace (c : Char) : Bool :=
  c.toNat = 32 || (9 ≤ c.toNat && c.toNat ≤ 13)

/-- Value of a run of decimal digits. -/
def digitsValue (ds : List Char) : Nat :=
  ds.foldl (fun a c => 10 * a + (c.toNat - 48)) 0

/-- Sign and remainder after the optional sign character, as `strtol` reads
them. -/
def splitSign : List Char → Bool × List Char
  | '-' :: r => (true, r)
  | '+' :: r => (false, r)
  | s => (false, s)

/-- The call `std::stoi(token)` (base 10, no position pointer): leading white
space is skipped, an optional sign and the longest run of digits are read,
whatever follows is ignored; no digit throws `invalid_argument`, a value
outside `int` throws `out_of_range`. -/
def stoi (token : List Char) : Except StoiError Int :=
  let body := splitSign (token.dropWhile isspace)
  let ds := body.2.takeWhile Char.isDigit
  if ds = [] then Except.error StoiError.invalid_argument
  else
    let n : Int := if body.1 then -(digitsValue ds : Int) else (digitsValue ds : Int)
    if INT_MIN ≤ n ∧ n ≤ INT_MAX then Except.ok n
    else Except.error StoiError.out_of_range

/-- State of the `stringstream ss(line)`: unread characters and state bits. -/
structure StringStream where
  buf : List Char
  eofbit : Bool
  failbit : Bool
  deriving DecidableEq, Repr

/-- The call `getline(ss, token, delim)`. When the stream is not good the
sentry fails: `failbit` is set and `token` is left untouched. Otherwise
`token` is erased and filled up to the delimiter (consumed) or to the end of
the buffer (`eofbit`, and `failbit` when nothing was read). -/
def getline (ss : StringStream) (token : List Char) (delim : Char) :
    StringStream × List Char :=
  if ss.eofbit || ss.failbit then ({ ss with failbit := true }, token)
  else
    let tok := ss.buf.takeWhile (fun c => c != delim)
    match ss.buf.dropWhile (fun c => c != delim) with
    | [] => ({ buf := [], eofbit := true, failbit := tok.isEmpty }, tok)
    | _ :: rest => ({ buf := rest, eofbit := false, failbit := false }, tok)

/-- The body of the reading loop (lines 45-58) on one line. `token` is
declared outside the loop, but the first `getline` on the fresh stream always
erases it, so every line starts from the empty token. -/
def parseLine (line : List Char) : Except StoiError TrafficSignal :=
  let r1 := getline { buf := line, eofbit := false, failbit := false } [] ','
  match stoi r1.2 with
  | Except.error e => Except.error e
  | Except.ok id =>
    let r2 := getline r1.1 r1.2 ','
    let r3 := getline r2.1 r2.2 ','
    match stoi r3.2 with
    | Except.error e => Except.error e
    | Except.ok cnt =>
      Except.ok { light_id := id, car_count := cnt, time_stamp := String.mk r2.2 }

/-- The lines `while (getline(input_file, line))` yields on a file with the
given contents: pieces between `\n`, a last piece without `\n` included when
it is not empty. `cur` holds the current line reversed. -/
def getlines : List Char → List Char → List (List Char)
  | cur, [] => if cur.isEmpty then [] else [cur.reverse]
  | cur, c :: rest =>
    if c = '\n' then cur.reverse :: getlines [] rest else getlines (c :: cur) rest

/-- The lines read after the header row has been skipped (line 41). -/
def dataLines (content : String) : List (List Char) :=
  (getlines [] content.data).drop 1

/-- The reading loop (lines 44-59): `process_data` in file order, or the
exception thrown on the first line that `stoi` rejects. -/
def ingest : List (List Char) → Except StoiError (List TrafficSignal)
  | [] => Except.ok []
  | l :: ls =>
    match parseLine l with
    | Except.error e => Except.error e
    | Except.ok s =>
      match ingest ls with
      | Except.error e => Except.error e
      | Except.ok rest => Except.ok (s :: rest)

/-- The comparison `operator<` of `std::string` on character sequences:
lexicographic by character code, a proper prefix being smaller. -/
def stringLess : List Char → List Char → Bool
  | [], [] => false
  | [], _ :: _ => true
  | _ :: _, [] => false
  | a :: as, b :: bs =>
    if a.toNat < b.toNat then true
    else if b.toNat < a.toNat then false
    else stringLess as bs

/-- The key order of the map: `std::less<std::string>`. -/
def keyLess (a b : String) : Bool := stringLess a.data b.data

/-- The statement `grouped_data[signal.time_stamp].push_back(signal)` on the
ordered map: the key is located with the key order alone, a missing key is
inserted at its place with an empty vector. -/
def mapPushBack : GroupedData → TrafficSignal → GroupedData
  | [], s => [(s.time_stamp, [s])]
  | (k, v) :: rest, s =>
    if keyLess s.time_stamp k then (s.time_stamp, [s]) :: (k, v) :: rest
    else if keyLess k s.time_stamp then (k, v) :: mapPushBack rest s
    else (k, v ++ [s]) :: rest

/-- The grouping loop (lines 64-66). -/
def groupByTimestamp (process_data : List TrafficSignal) : GroupedData :=
  process_data.foldl mapPushBack []

/-- The variable `grouped_data` of the participant of the given rank once
line 67 is passed: filled inside `if (rank == 0)` only, and not written
afterwards. -/
def grouped_data (rank : Nat) (process_data : List TrafficSignal) : GroupedData :=
  if rank = 0 then groupByTimestamp process_data else []

/-! ## Distribution (lines 69-81) and the gather (line 93) -/

/-- One collective call, named by the variable it transfers. -/
inductive Collective where
  | bcast_num_groups
  | bcast_group_size
  | bcast_light_id
  | bcast_car_count
  | gather
  deriving DecidableEq, Repr

/-- The calls of the broadcast loop (lines 70-81) run over a participant's own
`grouped_data`. -/
def broadcastOps (g : GroupedData) : List Collective :=
  Collective.bcast_num_groups ::
    g.flatMap (fun p =>
      Collective.bcast_group_size ::
        p.2.flatMap (fun _ => [Collective.bcast_light_id, Collective.bcast_car_count]))

/-- All collective calls a participant issues, in program order (lines
69-93). -/
def collectiveOps (rank : Nat) (process_data : List TrafficSignal) : List Collective :=
  broadcastOps (grouped_data rank process_data) ++ [Collective.gather]

/-! ## Local aggregation (lines 83-89) -/

/-- The update `v[idx] += x` on a vector; `none` when `idx` is outside it. -/
def addAt (v : List Int) (idx : Int) (x : Int) : Option (List Int) :=
  if 0 ≤ idx ∧ idx < (v.length : Int) then
    some (v.set idx.toNat (wrapInt (v.getD idx.toNat 0 + x)))
  else none

/-- The inner loop of lines 86-88 over one group. -/
def accumulateGroup (acc : Option (List Int)) (signals : List TrafficSignal) :
    Option (List Int) :=
  signals.foldl (fun a s => a.bind (fun v => addAt v (s.light_id - 1) s.car_count)) acc

/-- The vector `local_traffic_counts` after lines 84-89. -/
def local_traffic_counts (g : GroupedData) : Option (List Int) :=
  g.foldl (fun a p => accumulateGroup a p.2) (some [0, 0, 0, 0])

/-- All-or-nothing collection of optional results. -/
def sequenceOpt {α : Type} : List (Option α) → Option (List α)
  | [] => some []
  | none :: _ => none
  | some a :: rest => (sequenceOpt rest).map (fun l => a :: l)

/-- The receive buffer of `MPI_Gather` at the root: four values of every
participant, in rank order. -/
def MPI_Gather (locals : List (List Int)) : List Int :=
  locals.flatMap (fun l => l.take 4)

/-! ## Collection and ranking (lines 95-118) -/

/-- Number of lights printed (line 97). -/
def N : Nat := 4

/-- The index pairs `(i, j)` visited by the loops of lines 101-102. -/
def slotIndices (size : Nat) : List (Nat × Nat) :=
  (List.range size).flatMap (fun i => (List.range 4).map (fun j => (i, j)))

/-- The vector `traffic_lights` of pairs (car count, light id) built by lines
100-105; `none` when a read of `global_traffic_counts` is out of bounds. -/
def traffic_lights (size : Nat) (global_traffic_counts : List Int) :
    Option (List (Int × Int)) :=
  sequenceOpt ((slotIndices size).map (fun ij =>
    (global_traffic_counts.get? (ij.1 * 4 + ij.2)).map (fun c => (c, (ij.2 : Int) + 1))))

/-- The order `operator<` of `std::pair<int, int>`, flipped: `a` may stand
before `b` in a vector whose reverse is ascending. -/
def pairGe (a b : Int × Int) : Prop :=
  b.1 < a.1 ∨ (b.1 = a.1 ∧ b.2 ≤ a.2)

instance : DecidableRel pairGe := fun a b => by
  unfold pairGe
  exact inferInstance

/-- The call `sort(v.rbegin(), v.rend())` (line 108): the arrangement of `v`
whose reverse is ascending for `operator<` on pairs. That order is total, so
the result does not depend on the sorting algorithm. -/
def sortDescending (v : List (Int × Int)) : List (Int × Int) :=
  v.insertionSort pairGe

/-- The entries printed by lines 113-115, as (light id, car count). -/
def printed (traffic_lights : List (Int × Int)) : List (Int × Int) :=
  ((sortDescending traffic_lights).take N).map (fun p => (p.2, p.1))

/-- One iteration of the reporting loop (lines 99-117). -/
def reportGroup (size : Nat) (global_traffic_counts : List Int)
    (p : String × List TrafficSignal) : Option (String × List (Int × Int)) :=
  (traffic_lights size global_traffic_counts).map (fun tl => (p.1, printed tl))

/-- The reporting loop of the master (lines 96-118): per group, the time stamp
and the printed entries. -/
def report (g : GroupedData) (size : Nat) (global_traffic_counts : List Int) :
    Option (List (String × List (Int × Int))) :=
  sequenceOpt (g.map (reportGroup size global_traffic_counts))

/-! ## The whole run -/

/-- What a run leaves behind on the master's output. -/
inductive Outcome where
  | file_error
  | terminated (e : StoiError)
  | undefined_behaviour
  | finished (out : List (String × List (Int × Int)))
  deriving DecidableEq, Repr

/-- The local accumulators of all participants, in rank order. -/
def allLocalCounts (size : Nat) (process_data : List TrafficSignal) :
    Option (List (List Int)) :=
  sequenceOpt ((List.range size).map (fun r =>
    local_traffic_counts (grouped_data r process_data)))

/-- Lines 69-118 for parsed data: what the master prints. -/
def runParsed (size : Nat) (process_data : List TrafficSignal) : Outcome :=
  match allLocalCounts size process_data with
  | none => Outcome.undefined_behaviour
  | some locals =>
    match report (grouped_data 0 process_data) size (MPI_Gather locals) with
    | none => Outcome.undefined_behaviour
    | some out => Outcome.finished out

/-- The program `main` with `size` participants; `file` is the contents of
`test-traffic-info.txt`, or `none` when it cannot be opened. -/
def main (file : Option String) (size : Nat) : Outcome :=
  match file with
  | none => Outcome.file_error
  | some content =>
    match ingest (dataLines content) with
    | Except.error e => Outcome.terminated e
    | Except.ok process_data => runParsed size process_data

/-- The ranked lists a run emits. A run that ends in an error, an uncaught
exception or undefined behaviour is given none. -/
def emitted (o : Outcome) : List (String × List (Int × Int)) :=
  match o with
  | Outcome.finished out => out
  | _ => []


/-! ## Reference notions used to state the properties -/

/-- The sample source of the specification: a header and the readings
`(1,T1,10)`, `(2,T1,25)`, `(1,T2,5)`. -/
def sampleSource : String := "signal_id,timestamp,car_count\n1,T1,10\n2,T1,25\n1,T2,5\n"

/-- The readings of `sampleSource`. -/
def sampleReadings : List TrafficSignal :=
  [{ light_id := 1, car_count := 10, time_stamp := "T1" },
   { light_id := 2, car_count := 25, time_stamp := "T1" },
   { light_id := 1, car_count := 5, time_stamp := "T2" }]

/-- The distinct signal identifiers occurring in readings with time stamp `t`. -/
def signalsPresent (process_data : List TrafficSignal) (t : String) : List Int :=
  ((process_data.filter (fun r => r.time_stamp = t)).map (fun r => r.light_id)).dedup

/-- The exact sum of `car_count` over the readings with time stamp `t` and
signal identifier `s`. -/
def exactSum (process_data : List TrafficSignal) (t : String) (s : Int) : Int :=
  ((process_data.filter (fun r => r.time_stamp = t ∧ r.light_id = s)).map
    (fun r => r.car_count)).sum

/-- The comma-separated fields of a line, `cur` holding the current field
reversed. -/
def fieldsAux : List Char → List Char → List (List Char)
  | cur, [] => [cur.reverse]
  | cur, c :: rest =>
    if c = ',' then cur.reverse :: fieldsAux [] rest else fieldsAux (c :: cur) rest

/-- The comma-separated fields of a line: one more than it has commas. -/
def fields (line : List Char) : List (List Char) := fieldsAux [] line

/-- An integer numeral: an optional sign and one or more decimal digits, and
nothing else. -/
def isIntegerNumeral (tok : List Char) : Bool :=
  !(splitSign tok).2.isEmpty && (splitSign tok).2.all Char.isDigit

/-- A malformed data line in the sense of the specification: not exactly three
fields, or a first or third field that is not an integer numeral. -/
def specMalformed (line : List Char) : Bool :=
  (fields line).length != 3 || !isIntegerNumeral ((fields line).getD 0 []) ||
    !isIntegerNumeral ((fields line).getD 2 [])

/-- Whether `std::stoi` throws on the token. -/
def stoiThrows (tok : List Char) : Bool :=
  match stoi tok with
  | Except.error _ => true
  | Except.ok _ => false

/-- Whether the token, after leading white space and an optional sign, goes on
with a decimal digit. -/
def hasLeadingNumeral (tok : List Char) : Bool :=
  match (splitSign (tok.dropWhile isspace)).2 with
  | d :: _ => d.isDigit
  | [] => false

/-- The exact sum of `car_count` over all readings with signal identifier `s`,
whatever their time stamp. -/
def totalOf (process_data : List TrafficSignal) (s : Int) : Int :=
  ((process_data.filter (fun r => r.light_id = s)).map (fun r => r.car_count)).sum

/-! ## Auxiliary facts -/

theorem sequenceOpt_map_some {α β : Type} (f : α → Option β) (g : α → β) (l : List α)
    (h : ∀ x ∈ l, f x = some (g x)) : sequenceOpt (l.map f) = some (l.map g) := by
  induction l with
  | nil => rfl
  | cons a t ih =>
    have ha := h a (List.mem_cons_self a t)
    have ht := ih (fun x hx => h x (List.mem_cons_of_mem a hx))
    simp [sequenceOpt, ha, ht]

theorem sequenceOpt_eq_some {α : Type} (l : List (Option α)) (out : List α)
    (h : sequenceOpt l = some out) : l = out.map some := by
  induction l generalizing out with
  | nil => simp [sequenceOpt] at h; subst h; rfl
  | cons a t ih =>
    cases a with
    | none => simp [sequenceOpt] at h
    | some a =>
      simp only [sequenceOpt, Option.map_eq_some'] at h
      obtain ⟨r, hr, rfl⟩ := h
      rw [ih r hr]; rfl

theorem mem_slotIndices (size : Nat) (ij : Nat × Nat) :
    ij ∈ slotIndices size ↔ ij.1 < size ∧ ij.2 < 4 := by
  obtain ⟨i, j⟩ := ij
  simp [slotIndices, List.mem_flatMap]

theorem slotIndices_succ (n : Nat) :
    slotIndices (n + 1) = slotIndices n ++ [(n, 0), (n, 1), (n, 2), (n, 3)] := by
  simp [slotIndices, List.range_succ, List.flatMap_append]

theorem length_slotIndices (size : Nat) : (slotIndices size).length = 4 * size := by
  induction size with
  | zero => rfl
  | succ n ih => rw [slotIndices_succ, List.length_append, ih]; simp; omega

/-- With a gathered array of `4 * size` values every read of lines 101-105 is
in bounds, and the candidate vector is the array read slot by slot. -/
theorem traffic_lights_eq (size : Nat) (global : List Int) (h : 4 * size ≤ global.length) :
    traffic_lights size global =
      some ((slotIndices size).map (fun ij => (global.getD (ij.1 * 4 + ij.2) 0, (ij.2 : Int) + 1))) := by
  unfold traffic_lights
  apply sequenceOpt_map_some
  intro ij hij
  rw [mem_slotIndices] at hij
  have hlt : ij.1 * 4 + ij.2 < global.length := by omega
  simp [List.getD_eq_getElem?_getD, List.getElem?_eq_getElem hlt]

theorem traffic_lights_length (size : Nat) (global : List Int) (tl : List (Int × Int))
    (h : traffic_lights size global = some tl) : tl.length = 4 * size := by
  have := sequenceOpt_eq_some _ _ h
  have h2 := congrArg List.length this
  simp [length_slotIndices] at h2
  omega

theorem pairGe_total (a b : Int × Int) : pairGe a b ∨ pairGe b a := by
  unfold pairGe; omega

theorem pairGe_trans (a b c : Int × Int) (hab : pairGe a b) (hbc : pairGe b c) : pairGe a c := by
  unfold pairGe at hab hbc ⊢; omega

theorem sortDescending_sorted (v : List (Int × Int)) : (sortDescending v).Pairwise pairGe := by
  haveI : IsTotal (Int × Int) pairGe := ⟨pairGe_total⟩
  haveI : IsTrans (Int × Int) pairGe := ⟨pairGe_trans⟩
  exact List.sorted_insertionSort pairGe v

theorem sortDescending_perm (v : List (Int × Int)) : (sortDescending v).Perm v :=
  List.perm_insertionSort pairGe v

theorem pairGe_antisymm (a b : Int × Int) (h1 : pairGe a b) (h2 : pairGe b a) : a = b := by
  unfold pairGe at h1 h2
  apply Prod.ext <;> omega

/-- Any arrangement of `v` whose reverse is ascending for `operator<` is the
one `sortDescending` returns: the result of `std::sort` is determined. -/
theorem sortDescending_unique (v w : List (Int × Int)) (hp : w.Perm v)
    (hs : w.Pairwise pairGe) : w = sortDescending v := by
  haveI : IsAntisymm (Int × Int) pairGe := ⟨pairGe_antisymm⟩
  exact List.eq_of_perm_of_sorted (hp.trans (sortDescending_perm v).symm) hs
    (sortDescending_sorted v)

theorem printed_length (tl : List (Int × Int)) : (printed tl).length = min N tl.length := by
  simp [printed, (sortDescending_perm tl).length_eq]


theorem report_elim (g : GroupedData) (size : Nat) (global : List Int)
    (out : List (String × List (Int × Int))) (h : report g size global = some out)
    (t : String) (l : List (Int × Int)) (hm : (t, l) ∈ out) :
    ∃ tl, traffic_lights size global = some tl ∧ l = printed tl ∧ t ∈ g.map Prod.fst := by
  have h1 := sequenceOpt_eq_some _ _ h
  have h2 : some (t, l) ∈ g.map (reportGroup size global) := by
    rw [h1]; exact List.mem_map_of_mem some hm
  obtain ⟨p, hp, hpe⟩ := List.mem_map.1 h2
  unfold reportGroup at hpe
  cases htl : traffic_lights size global with
  | none => rw [htl] at hpe; simp at hpe
  | some tl =>
    rw [htl] at hpe
    simp only [Option.map_some', Option.some.injEq, Prod.mk.injEq] at hpe
    exact ⟨tl, rfl, hpe.2.symm, List.mem_map.2 ⟨p, hp, hpe.1⟩⟩

/-- Every emitted list comes from a run that read the file, parsed every line,
aggregated without fault, and printed the head of the sorted candidates. -/
theorem emitted_elim (file : Option String) (size : Nat) (t : String) (l : List (Int × Int))
    (h : (t, l) ∈ emitted (main file size)) :
    ∃ content pd locals tl, file = some content ∧ ingest (dataLines content) = Except.ok pd ∧
      allLocalCounts size pd = some locals ∧
      traffic_lights size (MPI_Gather locals) = some tl ∧ l = printed tl ∧
      t ∈ (groupByTimestamp pd).map Prod.fst := by
  cases file with
  | none => simp [main, emitted] at h
  | some content =>
    cases hi : ingest (dataLines content) with
    | error e => simp [main, emitted, hi] at h
    | ok pd =>
      cases hl : allLocalCounts size pd with
      | none => simp [main, emitted, hi, runParsed, hl] at h
      | some locals =>
        cases hr : report (grouped_data 0 pd) size (MPI_Gather locals) with
        | none => simp [main, emitted, hi, runParsed, hl, hr] at h
        | some out =>
          simp only [main, emitted, hi, runParsed, hl, hr] at h
          obtain ⟨tl, h1, h2, h3⟩ := report_elim _ _ _ _ hr t l h
          exact ⟨content, pd, locals, tl, rfl, hi, hl, h1, h2, by simpa [grouped_data] using h3⟩

theorem addAt_length (v : List Int) (idx x : Int) (w : List Int) (h : addAt v idx x = some w) :
    w.length = v.length := by
  unfold addAt at h
  split at h
  · simp only [Option.some.injEq] at h; subst h; simp
  · simp at h

theorem accumulateGroup_none (signals : List TrafficSignal) : accumulateGroup none signals = none := by
  induction signals with
  | nil => rfl
  | cons s t ih => simpa [accumulateGroup] using ih

theorem accumulateGroup_length (signals : List TrafficSignal) (v w : List Int)
    (h : accumulateGroup (some v) signals = some w) : w.length = v.length := by
  induction signals generalizing v with
  | nil => simp [accumulateGroup] at h; subst h; rfl
  | cons s t ih =>
    simp only [accumulateGroup, List.foldl_cons, Option.some_bind] at h
    cases ha : addAt v (s.light_id - 1) s.car_count with
    | none =>
      rw [ha] at h
      have := accumulateGroup_none t
      unfold accumulateGroup at this
      rw [this] at h; simp at h
    | some u =>
      rw [ha] at h
      have := ih u h
      rw [this, addAt_length _ _ _ _ ha]

theorem foldl_accumulate_none (g : GroupedData) :
    g.foldl (fun a p => accumulateGroup a p.2) none = none := by
  induction g with
  | nil => rfl
  | cons p t ih => simpa [accumulateGroup_none] using ih

theorem foldl_accumulate_length (g : GroupedData) (v w : List Int)
    (h : g.foldl (fun a p => accumulateGroup a p.2) (some v) = some w) : w.length = v.length := by
  induction g generalizing v with
  | nil => simp at h; subst h; rfl
  | cons p t ih =>
    simp only [List.foldl_cons] at h
    cases ha : accumulateGroup (some v) p.2 with
    | none => rw [ha, foldl_accumulate_none] at h; simp at h
    | some u => rw [ha] at h; rw [ih u h, accumulateGroup_length _ _ _ ha]

theorem local_traffic_counts_length (g : GroupedData) (w : List Int)
    (h : local_traffic_counts g = some w) : w.length = 4 :=
  foldl_accumulate_length g [0, 0, 0, 0] w h

theorem allLocalCounts_length (size : Nat) (pd : List TrafficSignal) (locals : List (List Int))
    (h : allLocalCounts size pd = some locals) :
    locals.length = size ∧ ∀ l ∈ locals, l.length = 4 := by
  have h1 := sequenceOpt_eq_some _ _ h
  constructor
  · have := congrArg List.length h1
    simpa using this.symm
  · intro l hl
    have : some l ∈ List.map (fun r => local_traffic_counts (grouped_data r pd)) (List.range size) := by
      rw [h1]; exact List.mem_map_of_mem some hl
    obtain ⟨r, _, hr⟩ := List.mem_map.1 this
    exact local_traffic_counts_length _ _ hr

theorem MPI_Gather_length (locals : List (List Int)) (h : ∀ l ∈ locals, l.length = 4) :
    (MPI_Gather locals).length = 4 * locals.length := by
  induction locals with
  | nil => rfl
  | cons a t ih =>
    have ha := h a (List.mem_cons_self a t)
    have := ih (fun l hl => h l (List.mem_cons_of_mem a hl))
    simp only [MPI_Gather, List.flatMap_cons, List.length_append, List.length_take,
      List.length_cons] at this ⊢
    omega


theorem MPI_Gather_cons (a : List Int) (t : List (List Int)) (ha : a.length = 4) :
    MPI_Gather (a :: t) = a ++ MPI_Gather t := by
  simp [MPI_Gather, List.take_of_length_le (le_of_eq ha)]

theorem MPI_Gather_getD (locals : List (List Int)) (h : ∀ l ∈ locals, l.length = 4)
    (i j : Nat) (hj : j < 4) :
    (MPI_Gather locals).getD (i * 4 + j) 0 = (locals.getD i []).getD j 0 := by
  induction locals generalizing i with
  | nil => simp [MPI_Gather]
  | cons a t ih =>
    have ha := h a (List.mem_cons_self a t)
    rw [MPI_Gather_cons a t ha]
    cases i with
    | zero =>
      simp only [Nat.zero_mul, Nat.zero_add, List.getD_cons_zero]
      exact List.getD_append _ _ _ _ (by omega)
    | succ i =>
      have := ih (fun l hl => h l (List.mem_cons_of_mem a hl)) i
      rw [List.getD_cons_succ, ← this]
      have e : (i + 1) * 4 + j = a.length + (i * 4 + j) := by omega
      rw [e, List.getD_append_right _ _ _ _ (by omega)]
      congr 1
      omega

theorem filter_slots (global : List Int) (s : Nat) (hs : s < 4) (p : Nat) :
    ((slotIndices p).map (fun ij => (global.getD (ij.1 * 4 + ij.2) 0, (ij.2 : Int) + 1))).filter
        (fun q => decide (q.2 = (s : Int) + 1)) =
      (List.range p).map (fun i => (global.getD (i * 4 + s) 0, (s : Int) + 1)) := by
  induction p with
  | zero => rfl
  | succ n ih =>
    rw [slotIndices_succ, List.map_append, List.filter_append, ih, List.range_succ,
      List.map_append]
    congr 1
    interval_cases s <;> simp [List.filter]

theorem map_range_getD (locals : List (List Int)) (f : List Int → Int × Int) :
    (List.range locals.length).map (fun i => f (locals.getD i [])) = locals.map f := by
  apply List.ext_getElem
  · simp
  · intro n h1 h2
    simp [List.getD_eq_getElem?_getD, List.getElem?_eq_getElem (by simpa using h1 : n < locals.length)]


theorem addAt_some (v : List Int) (id x : Int) (hv : v.length = 4) (h1 : 1 ≤ id) (h4 : id ≤ 4) :
    ∃ w, addAt v (id - 1) x = some w ∧ w.length = 4 := by
  have hc : 0 ≤ id - 1 ∧ id - 1 < (v.length : Int) := by rw [hv]; omega
  refine ⟨v.set (id - 1).toNat (wrapInt (v.getD (id - 1).toNat 0 + x)), ?_, by simp [hv]⟩
  unfold addAt
  rw [if_pos hc]

theorem accumulateGroup_some (signals : List TrafficSignal) (v : List Int) (hv : v.length = 4)
    (h : ∀ s ∈ signals, 1 ≤ s.light_id ∧ s.light_id ≤ 4) :
    ∃ w, accumulateGroup (some v) signals = some w ∧ w.length = 4 := by
  induction signals generalizing v with
  | nil => exact ⟨v, rfl, hv⟩
  | cons s t ih =>
    have hs := h s (List.mem_cons_self s t)
    obtain ⟨u, hu, hul⟩ := addAt_some v s.light_id s.car_count hv hs.1 hs.2
    obtain ⟨w, hw, hwl⟩ := ih u hul (fun x hx => h x (List.mem_cons_of_mem s hx))
    refine ⟨w, ?_, hwl⟩
    unfold accumulateGroup at hw ⊢
    simp only [List.foldl_cons, Option.some_bind, hu]
    exact hw

theorem foldl_accumulate_some (g : GroupedData) (v : List Int) (hv : v.length = 4)
    (h : ∀ p ∈ g, ∀ s ∈ p.2, 1 ≤ s.light_id ∧ s.light_id ≤ 4) :
    ∃ w, g.foldl (fun a p => accumulateGroup a p.2) (some v) = some w ∧ w.length = 4 := by
  induction g generalizing v with
  | nil => exact ⟨v, rfl, hv⟩
  | cons p t ih =>
    obtain ⟨u, hu, hul⟩ := accumulateGroup_some p.2 v hv (h p (List.mem_cons_self p t))
    obtain ⟨w, hw, hwl⟩ := ih u hul (fun q hq => h q (List.mem_cons_of_mem p hq))
    exact ⟨w, by simp only [List.foldl_cons, hu]; exact hw, hwl⟩

/-! ### The key order and the ordered map -/

theorem char_eq_of_toNat (a b : Char) (h : a.toNat = b.toNat) : a = b := by
  rw [← Char.ofNat_toNat a, ← Char.ofNat_toNat b, h]

theorem stringLess_irrefl (a : List Char) : stringLess a a = false := by
  induction a with
  | nil => rfl
  | cons c t ih => simp [stringLess, ih]

theorem stringLess_trans (a b c : List Char) (hab : stringLess a b = true)
    (hbc : stringLess b c = true) : stringLess a c = true := by
  induction a generalizing b c with
  | nil =>
    cases b with
    | nil => simp [stringLess] at hab
    | cons y bs =>
      cases c with
      | nil => simp [stringLess] at hbc
      | cons z cs => rfl
  | cons x as ih =>
    cases b with
    | nil => simp [stringLess] at hab
    | cons y bs =>
      cases c with
      | nil => simp [stringLess] at hbc
      | cons z cs =>
        simp only [stringLess] at hab hbc ⊢
        by_cases h1 : x.toNat < y.toNat
        · by_cases h2 : y.toNat < z.toNat
          · rw [if_pos (by omega)]
          · rw [if_neg h2] at hbc
            by_cases h3 : z.toNat < y.toNat
            · rw [if_pos h3] at hbc; simp at hbc
            · rw [if_pos (by omega)]
        · rw [if_neg h1] at hab
          by_cases h1' : y.toNat < x.toNat
          · rw [if_pos h1'] at hab; simp at hab
          · rw [if_neg h1'] at hab
            by_cases h2 : y.toNat < z.toNat
            · rw [if_pos (by omega)]
            · rw [if_neg h2] at hbc
              by_cases h3 : z.toNat < y.toNat
              · rw [if_pos h3] at hbc; simp at hbc
              · rw [if_neg h3] at hbc
                rw [if_neg (by omega), if_neg (by omega)]
                exact ih bs cs hab hbc

theorem stringLess_total (a b : List Char) (hab : stringLess a b = false)
    (hba : stringLess b a = false) : a = b := by
  induction a generalizing b with
  | nil =>
    cases b with
    | nil => rfl
    | cons y bs => simp [stringLess] at hab
  | cons x as ih =>
    cases b with
    | nil => simp [stringLess] at hba
    | cons y bs =>
      simp only [stringLess] at hab hba
      by_cases h1 : x.toNat < y.toNat
      · rw [if_pos h1] at hab; simp at hab
      · rw [if_neg h1] at hab
        by_cases h2 : y.toNat < x.toNat
        · rw [if_pos h2] at hab hba; simp at hba
        · rw [if_neg h2] at hab hba
          rw [if_neg h1] at hba
          rw [char_eq_of_toNat x y (by omega), ih bs hab hba]

theorem keyLess_irrefl (a : String) : keyLess a a = false := stringLess_irrefl a.data

theorem keyLess_trans (a b c : String) (hab : keyLess a b = true) (hbc : keyLess b c = true) :
    keyLess a c = true := stringLess_trans _ _ _ hab hbc

theorem keyLess_total (a b : String) (hab : keyLess a b = false) (hba : keyLess b a = false) :
    a = b := String.ext (stringLess_total _ _ hab hba)

theorem mem_keys_mapPushBack (m : GroupedData) (s : TrafficSignal) (t : String) :
    t ∈ (mapPushBack m s).map Prod.fst ↔ t = s.time_stamp ∨ t ∈ m.map Prod.fst := by
  induction m with
  | nil => simp [mapPushBack]
  | cons kv rest ih =>
    obtain ⟨k, v⟩ := kv
    unfold mapPushBack
    by_cases h1 : keyLess s.time_stamp k = true
    · rw [if_pos h1]; simp
    · rw [if_neg h1]
      by_cases h2 : keyLess k s.time_stamp = true
      · rw [if_pos h2]
        simp only [List.map_cons, List.mem_cons, ih]
        tauto
      · rw [if_neg h2]
        have hk : s.time_stamp = k :=
          keyLess_total _ _ (by simpa using h1) (by simpa using h2)
        simp only [List.map_cons, List.mem_cons, hk]
        tauto

theorem keys_sorted_mapPushBack (m : GroupedData) (s : TrafficSignal)
    (hm : (m.map Prod.fst).Pairwise (fun a b => keyLess a b = true)) :
    ((mapPushBack m s).map Prod.fst).Pairwise (fun a b => keyLess a b = true) := by
  induction m with
  | nil => simp [mapPushBack]
  | cons kv rest ih =>
    obtain ⟨k, v⟩ := kv
    simp only [List.map_cons, List.pairwise_cons] at hm
    unfold mapPushBack
    by_cases h1 : keyLess s.time_stamp k = true
    · rw [if_pos h1]
      simp only [List.map_cons, List.pairwise_cons, List.mem_cons]
      refine ⟨?_, hm.1, hm.2⟩
      rintro b (rfl | hb)
      · exact h1
      · exact keyLess_trans _ _ _ h1 (hm.1 b hb)
    · rw [if_neg h1]
      by_cases h2 : keyLess k s.time_stamp = true
      · rw [if_pos h2]
        simp only [List.map_cons, List.pairwise_cons]
        refine ⟨?_, ih hm.2⟩
        intro b hb
        rcases (mem_keys_mapPushBack rest s b).1 hb with rfl | hb
        · exact h2
        · exact hm.1 b hb
      · rw [if_neg h2]
        simp only [List.map_cons, List.pairwise_cons]
        exact hm

theorem mem_group_mapPushBack (m : GroupedData) (s : TrafficSignal) (q : String × List TrafficSignal)
    (hq : q ∈ mapPushBack m s) (x : TrafficSignal) (hx : x ∈ q.2) :
    x = s ∨ ∃ q' ∈ m, x ∈ q'.2 := by
  induction m with
  | nil =>
    simp only [mapPushBack, List.mem_singleton] at hq
    subst hq
    simp only [List.mem_singleton] at hx
    exact Or.inl hx
  | cons kv rest ih =>
    obtain ⟨k, v⟩ := kv
    unfold mapPushBack at hq
    by_cases h1 : keyLess s.time_stamp k = true
    · rw [if_pos h1] at hq
      rcases List.mem_cons.1 hq with rfl | hq
      · simp only [List.mem_singleton] at hx
        exact Or.inl hx
      · exact Or.inr ⟨q, hq, hx⟩
    · rw [if_neg h1] at hq
      by_cases h2 : keyLess k s.time_stamp = true
      · rw [if_pos h2] at hq
        rcases List.mem_cons.1 hq with rfl | hq
        · exact Or.inr ⟨_, List.mem_cons_self _ _, hx⟩
        · rcases ih hq with h | ⟨q', hq', hx'⟩
          · exact Or.inl h
          · exact Or.inr ⟨q', List.mem_cons_of_mem _ hq', hx'⟩
      · rw [if_neg h2] at hq
        rcases List.mem_cons.1 hq with rfl | hq
        · rcases List.mem_append.1 hx with h | h
          · exact Or.inr ⟨_, List.mem_cons_self _ _, h⟩
          · simp only [List.mem_singleton] at h
            exact Or.inl h
        · exact Or.inr ⟨q, List.mem_cons_of_mem _ hq, hx⟩

theorem foldl_mapPushBack_spec (pd : List TrafficSignal) (m : GroupedData)
    (hm : (m.map Prod.fst).Pairwise (fun a b => keyLess a b = true)) :
    ((pd.foldl mapPushBack m).map Prod.fst).Pairwise (fun a b => keyLess a b = true) ∧
    (∀ t, t ∈ (pd.foldl mapPushBack m).map Prod.fst ↔
      t ∈ m.map Prod.fst ∨ ∃ r ∈ pd, r.time_stamp = t) ∧
    (∀ q ∈ pd.foldl mapPushBack m, ∀ x ∈ q.2, x ∈ pd ∨ ∃ q' ∈ m, x ∈ q'.2) := by
  induction pd generalizing m with
  | nil =>
    refine ⟨hm, by simp, ?_⟩
    intro q hq x hx
    exact Or.inr ⟨q, hq, hx⟩
  | cons s rest ih =>
    obtain ⟨h1, h2, h3⟩ := ih (mapPushBack m s) (keys_sorted_mapPushBack m s hm)
    refine ⟨h1, ?_, ?_⟩
    · intro t
      rw [List.foldl_cons, h2 t, mem_keys_mapPushBack]
      simp only [List.mem_cons, exists_eq_or_imp]
      constructor
      · rintro ((h | h) | h)
        · exact Or.inr (Or.inl h.symm)
        · exact Or.inl h
        · exact Or.inr (Or.inr h)
      · rintro (h | h | h)
        · exact Or.inl (Or.inr h)
        · exact Or.inl (Or.inl h.symm)
        · exact Or.inr h
    · intro q hq x hx
      rcases h3 q hq x hx with h | ⟨q', hq', hx'⟩
      · exact Or.inl (List.mem_cons_of_mem _ h)
      · rcases mem_group_mapPushBack m s q' hq' x hx' with h | h
        · exact Or.inl (h ▸ List.mem_cons_self _ _)
        · exact Or.inr h

theorem groupByTimestamp_keys_sorted (pd : List TrafficSignal) :
    ((groupByTimestamp pd).map Prod.fst).Pairwise (fun a b => keyLess a b = true) :=
  (foldl_mapPushBack_spec pd [] List.Pairwise.nil).1

theorem groupByTimestamp_keys (pd : List TrafficSignal) (t : String) :
    t ∈ (groupByTimestamp pd).map Prod.fst ↔ ∃ r ∈ pd, r.time_stamp = t := by
  have := (foldl_mapPushBack_spec pd [] List.Pairwise.nil).2.1 t
  simpa [groupByTimestamp] using this

theorem groupByTimestamp_mem (pd : List TrafficSignal) (q : String × List TrafficSignal)
    (hq : q ∈ groupByTimestamp pd) (x : TrafficSignal) (hx : x ∈ q.2) : x ∈ pd := by
  rcases (foldl_mapPushBack_spec pd [] List.Pairwise.nil).2.2 q hq x hx with h | ⟨q', hq', -⟩
  · exact h
  · simp at hq'

/-! ### Runs on well-formed data finish -/

theorem sequenceOpt_some_of_all {α : Type} (l : List (Option α))
    (h : ∀ x ∈ l, ∃ a, x = some a) : ∃ out, sequenceOpt l = some out := by
  induction l with
  | nil => exact ⟨[], rfl⟩
  | cons x t ih =>
    obtain ⟨a, rfl⟩ := h x (List.mem_cons_self x t)
    obtain ⟨out, hout⟩ := ih (fun y hy => h y (List.mem_cons_of_mem _ hy))
    exact ⟨a :: out, by simp [sequenceOpt, hout]⟩

theorem allLocalCounts_some (size : Nat) (pd : List TrafficSignal)
    (hwf : ∀ r ∈ pd, 1 ≤ r.light_id ∧ r.light_id ≤ 4) :
    ∃ locals, allLocalCounts size pd = some locals := by
  apply sequenceOpt_some_of_all
  intro x hx
  obtain ⟨r, -, rfl⟩ := List.mem_map.1 hx
  have : ∀ p ∈ grouped_data r pd, ∀ s ∈ p.2, 1 ≤ s.light_id ∧ s.light_id ≤ 4 := by
    intro p hp s hs
    unfold grouped_data at hp
    split at hp
    · exact hwf s (groupByTimestamp_mem pd p hp s hs)
    · simp at hp
  obtain ⟨w, hw, -⟩ := foldl_accumulate_some (grouped_data r pd) [0, 0, 0, 0] rfl this
  exact ⟨w, hw⟩

theorem report_eq (g : GroupedData) (size : Nat) (global : List Int) (tl : List (Int × Int))
    (h : traffic_lights size global = some tl) :
    report g size global = some (g.map (fun p => (p.1, printed tl))) := by
  unfold report
  apply sequenceOpt_map_some
  intro p _
  simp [reportGroup, h]

/-- A source whose lines all parse and whose signal identifiers lie in 1..4
makes the run finish: one printed list per group of the master's map. -/
theorem run_finished (content : String) (size : Nat) (pd : List TrafficSignal)
    (hi : ingest (dataLines content) = Except.ok pd)
    (hwf : ∀ r ∈ pd, 1 ≤ r.light_id ∧ r.light_id ≤ 4) :
    ∃ locals tl, allLocalCounts size pd = some locals ∧
      traffic_lights size (MPI_Gather locals) = some tl ∧
      main (some content) size =
        Outcome.finished ((groupByTimestamp pd).map (fun p => (p.1, printed tl))) := by
  obtain ⟨locals, hl⟩ := allLocalCounts_some size pd hwf
  obtain ⟨hlen, hall⟩ := allLocalCounts_length size pd locals hl
  have hg := MPI_Gather_length locals hall
  rw [hlen] at hg
  have htl := traffic_lights_eq size (MPI_Gather locals) (le_of_eq hg.symm)
  refine ⟨locals, _, hl, htl, ?_⟩
  simp only [main, hi, runParsed, hl, grouped_data, if_true, report_eq _ _ _ _ htl]

/-! ### Line parsing -/

theorem fieldsAux_eq (cur l : List Char) :
    fieldsAux cur l = (cur.reverse ++ l.takeWhile (fun c => c != ',')) ::
      (match l.dropWhile (fun c => c != ',') with
        | [] => []
        | _ :: r => fieldsAux [] r) := by
  induction l generalizing cur with
  | nil => simp [fieldsAux]
  | cons c rest ih =>
    have hstep : fieldsAux cur (c :: rest) =
        if c = ',' then cur.reverse :: fieldsAux [] rest else fieldsAux (c :: cur) rest := rfl
    rw [hstep]
    by_cases hc : c = ','
    · subst hc
      simp
    · rw [if_neg hc, ih]
      simp [List.takeWhile_cons, List.dropWhile_cons, hc]

theorem fields_eq (l : List Char) :
    fields l = l.takeWhile (fun c => c != ',') ::
      (match l.dropWhile (fun c => c != ',') with
        | [] => []
        | _ :: r => fields r) := by
  unfold fields
  rw [fieldsAux_eq]
  simp

theorem getline_good (buf token : List Char) :
    getline { buf := buf, eofbit := false, failbit := false } token ',' =
      match buf.dropWhile (fun c => c != ',') with
      | [] => ({ buf := [], eofbit := true,
                 failbit := (buf.takeWhile (fun c => c != ',')).isEmpty },
               buf.takeWhile (fun c => c != ','))
      | _ :: rest => ({ buf := rest, eofbit := false, failbit := false },
               buf.takeWhile (fun c => c != ',')) := by
  simp [getline]

theorem firstToken_eq (l : List Char) :
    (getline { buf := l, eofbit := false, failbit := false } [] ',').2 = (fields l).getD 0 [] := by
  rw [getline_good, fields_eq]
  cases l.dropWhile (fun c => c != ',') <;> rfl

/-- On a line with at least three fields the loop body reads the fields 0, 1
and 2; later fields are never looked at. -/
theorem parseLine_three_fields (l : List Char) (h : 3 ≤ (fields l).length) :
    parseLine l =
      match stoi ((fields l).getD 0 []) with
      | Except.error e => Except.error e
      | Except.ok id =>
        match stoi ((fields l).getD 2 []) with
        | Except.error e => Except.error e
        | Except.ok cnt =>
          Except.ok { light_id := id, car_count := cnt,
                      time_stamp := String.mk ((fields l).getD 1 []) } := by
  have e0 := fields_eq l
  cases h1 : l.dropWhile (fun c => c != ',') with
  | nil => rw [h1] at e0; rw [e0] at h; simp at h
  | cons c1 l1 =>
    rw [h1] at e0
    simp only at e0
    have e1 := fields_eq l1
    cases h2 : l1.dropWhile (fun c => c != ',') with
    | nil => rw [h2] at e1; rw [e0, e1] at h; simp at h
    | cons c2 l2 =>
      rw [h2] at e1
      simp only at e1
      have e2 := fields_eq l2
      have hf : fields l = l.takeWhile (fun c => c != ',') :: l1.takeWhile (fun c => c != ',') ::
          l2.takeWhile (fun c => c != ',') ::
            (match l2.dropWhile (fun c => c != ',') with
              | [] => []
              | _ :: r => fields r) := by
        rw [e0, e1, e2]
      rw [hf]
      simp only [List.getD_cons_zero, List.getD_cons_succ]
      unfold parseLine
      simp only [getline_good, h1, h2]
      cases h3 : l2.dropWhile (fun c => c != ',') <;> rfl

theorem parseLine_error_of_first (l : List Char) (e : StoiError)
    (h : stoi ((fields l).getD 0 []) = Except.error e) : parseLine l = Except.error e := by
  unfold parseLine
  simp only [firstToken_eq, h]

theorem ingest_error_of_mem (lines : List (List Char)) (l : List Char) (hl : l ∈ lines)
    (e : StoiError) (h : parseLine l = Except.error e) : ∃ e', ingest lines = Except.error e' := by
  induction lines with
  | nil => simp at hl
  | cons a t ih =>
    unfold ingest
    cases ha : parseLine a with
    | error e1 => exact ⟨e1, rfl⟩
    | ok s =>
      rcases List.mem_cons.1 hl with rfl | hl
      · rw [h] at ha; cases ha
      · obtain ⟨e', he'⟩ := ih hl
        exact ⟨e', by simp only [he']⟩

theorem stoiThrows_iff (tok : List Char) : stoiThrows tok = true ↔ ∃ e, stoi tok = Except.error e := by
  unfold stoiThrows
  cases stoi tok <;> simp

theorem range_check_ne (c : Prop) [Decidable c] (n : Int) :
    (if c then (Except.ok n : Except StoiError Int) else Except.error StoiError.out_of_range) ≠
      Except.error StoiError.invalid_argument := by
  split <;> simp

/-- The exception `invalid_argument` is thrown exactly when no digit follows
the leading white space and the optional sign. -/
theorem stoi_invalid_iff (tok : List Char) :
    stoi tok = Except.error StoiError.invalid_argument ↔ hasLeadingNumeral tok = false := by
  unfold stoi hasLeadingNumeral
  generalize splitSign (List.dropWhile isspace tok) = body
  obtain ⟨neg, rest⟩ := body
  cases rest with
  | nil => simp
  | cons d r =>
    by_cases hd : d.isDigit = true
    · simp only [List.takeWhile_cons, hd, if_true]
      simp only [List.cons_ne_nil, if_false]
      constructor
      · intro h
        exact absurd h (range_check_ne _ _)
      · intro h
        simp at h
    · simp [List.takeWhile_cons, hd]

theorem stoiThrows_of_no_numeral (tok : List Char) (h : hasLeadingNumeral tok = false) :
    stoiThrows tok = true :=
  (stoiThrows_iff tok).2 ⟨StoiError.invalid_argument, (stoi_invalid_iff tok).2 h⟩

/-! ### Participants other than the master -/

theorem worker_grouped_data (rank : Nat) (pd : List TrafficSignal) (h : 0 < rank) :
    grouped_data rank pd = [] := by
  unfold grouped_data
  rw [if_neg (by omega)]

theorem worker_collectiveOps (rank : Nat) (pd : List TrafficSignal) (h : 0 < rank) :
    collectiveOps rank pd = [Collective.bcast_num_groups, Collective.gather] := by
  unfold collectiveOps
  rw [worker_grouped_data rank pd h]
  rfl

theorem master_grouped_data_ne_nil (s : TrafficSignal) (pd : List TrafficSignal) :
    grouped_data 0 (s :: pd) ≠ [] := by
  intro h
  have hk := (groupByTimestamp_keys (s :: pd) s.time_stamp).2 ⟨s, List.mem_cons_self _ _, rfl⟩
  simp only [grouped_data, if_true] at h
  rw [h] at hk
  simp at hk

/-- With at least one reading the master and any other participant issue
different sequences of collective calls. -/
theorem collectiveOps_mismatch (rank : Nat) (s : TrafficSignal) (pd : List TrafficSignal)
    (h : 0 < rank) : collectiveOps 0 (s :: pd) ≠ collectiveOps rank (s :: pd) := by
  rw [worker_collectiveOps rank _ h]
  unfold collectiveOps
  cases hg : grouped_data 0 (s :: pd) with
  | nil => exact absurd hg (master_grouped_data_ne_nil s pd)
  | cons p t => simp [broadcastOps]

/-! ### What local aggregation computes -/

theorem wrapInt_add (a b : Int) : wrapInt (wrapInt a + b) = wrapInt (a + b) := by
  unfold wrapInt
  omega

theorem wrapInt_of_range (a : Int) (h1 : INT_MIN ≤ a) (h2 : a ≤ INT_MAX) : wrapInt a = a := by
  unfold wrapInt
  unfold INT_MIN at h1
  unfold INT_MAX at h2
  omega

theorem totalOf_cons (s : TrafficSignal) (l : List TrafficSignal) (k : Int) :
    totalOf (s :: l) k = (if s.light_id = k then s.car_count else 0) + totalOf l k := by
  unfold totalOf
  by_cases h : s.light_id = k <;> simp [List.filter_cons, h]

theorem accumulateGroup_totals (l : List TrafficSignal)
    (h : ∀ s ∈ l, 1 ≤ s.light_id ∧ s.light_id ≤ 4) (a b c d : Int) :
    accumulateGroup (some [wrapInt a, wrapInt b, wrapInt c, wrapInt d]) l =
      some [wrapInt (a + totalOf l 1), wrapInt (b + totalOf l 2), wrapInt (c + totalOf l 3),
        wrapInt (d + totalOf l 4)] := by
  induction l generalizing a b c d with
  | nil => simp [accumulateGroup, totalOf]
  | cons s t ih =>
    have hs := h s (List.mem_cons_self s t)
    have ht := ih (fun x hx => h x (List.mem_cons_of_mem s hx))
    have hstep : accumulateGroup (some [wrapInt a, wrapInt b, wrapInt c, wrapInt d]) (s :: t) =
        accumulateGroup
          (addAt [wrapInt a, wrapInt b, wrapInt c, wrapInt d] (s.light_id - 1) s.car_count) t := by
      simp [accumulateGroup]
    rw [hstep]
    have hid : s.light_id = 1 ∨ s.light_id = 2 ∨ s.light_id = 3 ∨ s.light_id = 4 := by omega
    rcases hid with h1 | h1 | h1 | h1
    · have e : addAt [wrapInt a, wrapInt b, wrapInt c, wrapInt d] (s.light_id - 1) s.car_count =
          some [wrapInt (a + s.car_count), wrapInt b, wrapInt c, wrapInt d] := by
        simp [addAt, h1, wrapInt_add]
      rw [e, ht, totalOf_cons, totalOf_cons, totalOf_cons, totalOf_cons, h1]
      simp [add_assoc]
    · have e : addAt [wrapInt a, wrapInt b, wrapInt c, wrapInt d] (s.light_id - 1) s.car_count =
          some [wrapInt a, wrapInt (b + s.car_count), wrapInt c, wrapInt d] := by
        simp [addAt, h1, wrapInt_add]
      rw [e, ht, totalOf_cons, totalOf_cons, totalOf_cons, totalOf_cons, h1]
      simp [add_assoc]
    · have e : addAt [wrapInt a, wrapInt b, wrapInt c, wrapInt d] (s.light_id - 1) s.car_count =
          some [wrapInt a, wrapInt b, wrapInt (c + s.car_count), wrapInt d] := by
        simp [addAt, h1, wrapInt_add]
      rw [e, ht, totalOf_cons, totalOf_cons, totalOf_cons, totalOf_cons, h1]
      simp [add_assoc]
    · have e : addAt [wrapInt a, wrapInt b, wrapInt c, wrapInt d] (s.light_id - 1) s.car_count =
          some [wrapInt a, wrapInt b, wrapInt c, wrapInt (d + s.car_count)] := by
        simp [addAt, h1, wrapInt_add]
      rw [e, ht, totalOf_cons, totalOf_cons, totalOf_cons, totalOf_cons, h1]
      simp [add_assoc]

theorem accumulateGroup_append (acc : Option (List Int)) (l1 l2 : List TrafficSignal) :
    accumulateGroup acc (l1 ++ l2) = accumulateGroup (accumulateGroup acc l1) l2 := by
  simp [accumulateGroup, List.foldl_append]

theorem foldl_accumulate_flatten (g : GroupedData) (acc : Option (List Int)) :
    g.foldl (fun a p => accumulateGroup a p.2) acc =
      accumulateGroup acc (g.flatMap (fun p => p.2)) := by
  induction g generalizing acc with
  | nil => rfl
  | cons p t ih =>
    rw [List.foldl_cons, ih, List.flatMap_cons, accumulateGroup_append]

theorem mapPushBack_perm (m : GroupedData) (s : TrafficSignal) :
    ((mapPushBack m s).flatMap (fun p => p.2)).Perm (s :: m.flatMap (fun p => p.2)) := by
  induction m with
  | nil => simp [mapPushBack]
  | cons kv rest ih =>
    obtain ⟨k, v⟩ := kv
    unfold mapPushBack
    by_cases h1 : keyLess s.time_stamp k = true
    · rw [if_pos h1]; simp
    · rw [if_neg h1]
      by_cases h2 : keyLess k s.time_stamp = true
      · rw [if_pos h2]
        simp only [List.flatMap_cons]
        exact (List.Perm.append_left v ih).trans List.perm_middle
      · rw [if_neg h2]
        simp only [List.flatMap_cons, List.append_assoc, List.singleton_append]
        exact List.perm_middle.trans (List.Perm.refl _)

theorem foldl_mapPushBack_perm (pd : List TrafficSignal) (m : GroupedData) :
    ((pd.foldl mapPushBack m).flatMap (fun p => p.2)).Perm (m.flatMap (fun p => p.2) ++ pd) := by
  induction pd generalizing m with
  | nil => simp
  | cons s rest ih =>
    rw [List.foldl_cons]
    refine (ih (mapPushBack m s)).trans ?_
    refine ((mapPushBack_perm m s).append_right rest).trans ?_
    rw [List.cons_append]
    exact List.perm_middle.symm

theorem totalOf_perm (l1 l2 : List TrafficSignal) (h : l1.Perm l2) (k : Int) :
    totalOf l1 k = totalOf l2 k := by
  unfold totalOf
  exact ((h.filter _).map _).sum_eq

/-- The master's accumulator holds, for each of the four signals, the sum of
`car_count` over all its readings of the whole file, reduced to 32 bits. -/
theorem master_local_counts (pd : List TrafficSignal)
    (hwf : ∀ r ∈ pd, 1 ≤ r.light_id ∧ r.light_id ≤ 4) :
    local_traffic_counts (groupByTimestamp pd) =
      some [wrapInt (totalOf pd 1), wrapInt (totalOf pd 2), wrapInt (totalOf pd 3),
        wrapInt (totalOf pd 4)] := by
  have hperm : ((groupByTimestamp pd).flatMap (fun p => p.2)).Perm pd := by
    simpa [groupByTimestamp] using foldl_mapPushBack_perm pd []
  have hmem : ∀ s ∈ (groupByTimestamp pd).flatMap (fun p => p.2),
      1 ≤ s.light_id ∧ s.light_id ≤ 4 := fun s hs => hwf s (hperm.mem_iff.1 hs)
  unfold local_traffic_counts
  rw [foldl_accumulate_flatten]
  have := accumulateGroup_totals _ hmem 0 0 0 0
  simp only [zero_add] at this
  rw [show wrapInt 0 = 0 from rfl] at this
  rw [this, totalOf_perm _ _ hperm 1, totalOf_perm _ _ hperm 2, totalOf_perm _ _ hperm 3,
    totalOf_perm _ _ hperm 4]

theorem allLocalCounts_getD (size : Nat) (pd : List TrafficSignal) (locals : List (List Int))
    (h : allLocalCounts size pd = some locals) (i : Nat) (hi : i < size) :
    local_traffic_counts (grouped_data i pd) = some (locals.getD i []) := by
  have h1 := sequenceOpt_eq_some _ _ h
  have hlen := (allLocalCounts_length size pd locals h).1
  have h2 := congrArg (fun l => l[i]?) h1
  simp only [List.getElem?_map, List.getElem?_range hi, Option.map_some'] at h2
  rw [List.getElem?_eq_getElem (by omega : i < locals.length)] at h2
  simp only [Option.map_some', Option.some.injEq] at h2
  rw [h2, List.getD_eq_getElem?_getD, List.getElem?_eq_getElem (by omega : i < locals.length)]
  rfl

/-- Every printed entry names one of the signals 1..4, and its total is the
32-bit sum of `car_count` over all readings of that signal in the whole file,
whatever their time stamp, or is the untouched zero slot of a participant
other than the master. -/
theorem printed_totals (content : String) (size : Nat) (pd : List TrafficSignal)
    (hi : ingest (dataLines content) = Except.ok pd)
    (hwf : ∀ r ∈ pd, 1 ≤ r.light_id ∧ r.light_id ≤ 4)
    (t : String) (l : List (Int × Int)) (h : (t, l) ∈ emitted (main (some content) size)) :
    ∀ e ∈ l, (1 ≤ e.1 ∧ e.1 ≤ 4) ∧ (e.2 = wrapInt (totalOf pd e.1) ∨ (2 ≤ size ∧ e.2 = 0)) := by
  obtain ⟨content', pd', locals, tl, hc, hi', hloc, htl, hl, -⟩ := emitted_elim _ size t l h
  cases hc
  rw [hi] at hi'
  cases hi'
  obtain ⟨hlen, hall⟩ := allLocalCounts_length size pd locals hloc
  have hg := MPI_Gather_length locals hall
  rw [hlen] at hg
  rw [traffic_lights_eq size (MPI_Gather locals) (le_of_eq hg.symm)] at htl
  cases htl
  intro e he
  rw [hl] at he
  unfold printed at he
  obtain ⟨q, hq, rfl⟩ := List.mem_map.1 he
  have hq' := (sortDescending_perm _).mem_iff.1 (List.mem_of_mem_take hq)
  obtain ⟨ij, hij, rfl⟩ := List.mem_map.1 hq'
  obtain ⟨i, j⟩ := ij
  rw [mem_slotIndices] at hij
  simp only at hij ⊢
  rw [MPI_Gather_getD locals hall i j hij.2]
  refine ⟨by omega, ?_⟩
  have hloc_i := allLocalCounts_getD size pd locals hloc i hij.1
  cases i with
  | zero =>
    left
    simp only [grouped_data, if_true] at hloc_i
    rw [master_local_counts pd hwf] at hloc_i
    injection hloc_i with hloc_i
    rw [← hloc_i]
    have hj := hij.2
    interval_cases j <;> rfl
  | succ i =>
    right
    rw [worker_grouped_data (i + 1) pd (by omega)] at hloc_i
    have hz : local_traffic_counts [] = some [0, 0, 0, 0] := rfl
    rw [hz] at hloc_i
    injection hloc_i with hloc_i
    rw [← hloc_i]
    refine ⟨by omega, ?_⟩
    have hj := hij.2
    interval_cases j <;> rfl

/-! ## Collection and ranking: the candidate vector -/

/-- C6 (refuted as stated): with two participants holding `[1,2,3,4]` and
`[5,6,7,8]` the candidate vector does not hold one pair per signal whose total
is the sum over the participants. -/
theorem combination_sum_counterexample :
    ¬ (∀ locals : List (List Int), (∀ l ∈ locals, l.length = 4) → 1 ≤ locals.length →
        ∃ tl, traffic_lights locals.length (MPI_Gather locals) = some tl ∧
          ∀ s : Nat, s < 4 →
            tl.filter (fun q => decide (q.2 = (s : Int) + 1)) =
              [((locals.map (fun l => l.getD s 0)).sum, (s : Int) + 1)]) := by
  intro h
  obtain ⟨tl, h1, h2⟩ := h [[1, 2, 3, 4], [5, 6, 7, 8]] (by decide) (by decide)
  have e : traffic_lights 2 (MPI_Gather [[1, 2, 3, 4], [5, 6, 7, 8]]) =
      some [(1, 1), (2, 2), (3, 3), (4, 4), (5, 1), (6, 2), (7, 3), (8, 4)] := by decide
  simp only [List.length_cons, List.length_nil] at h1
  rw [e] at h1
  injection h1 with h1
  subst h1
  have := h2 0 (by decide)
  revert this
  decide

/-- C6 (amended): for the gathered concatenation of any four-slot local
accumulators, every read is in bounds and, for each signal identifier `s + 1`
with `s < 4`, the candidate vector holds one pair per participant, in rank
order, whose total is that participant's own slot for the signal; nothing is
summed across participants. -/
theorem combination_per_participant (locals : List (List Int))
    (h : ∀ l ∈ locals, l.length = 4) :
    ∃ tl, traffic_lights locals.length (MPI_Gather locals) = some tl ∧
      tl.length = 4 * locals.length ∧
      ∀ s : Nat, s < 4 →
        tl.filter (fun q => decide (q.2 = (s : Int) + 1)) =
          locals.map (fun l => (l.getD s 0, (s : Int) + 1)) := by
  have hlen := MPI_Gather_length locals h
  have htl := traffic_lights_eq locals.length (MPI_Gather locals) (le_of_eq hlen.symm)
  refine ⟨_, htl, traffic_lights_length _ _ _ htl, ?_⟩
  intro s hs
  rw [filter_slots _ s hs]
  have : (fun i => ((MPI_Gather locals).getD (i * 4 + s) 0, (s : Int) + 1)) =
      (fun i => (fun l : List Int => (l.getD s 0, (s : Int) + 1)) (locals.getD i [])) := by
    funext i
    rw [MPI_Gather_getD locals h i s hs]
  rw [this]
  exact map_range_getD locals (fun l => (l.getD s 0, (s : Int) + 1))

theorem combination_per_participant_witness :
    (∀ l ∈ [[1, 2, 3, 4], [5, 6, 7, 8]], l.length = 4) ∧
    ∃ tl, traffic_lights 2 (MPI_Gather [[1, 2, 3, 4], [5, 6, 7, 8]]) = some tl ∧
      tl.length = 4 * 2 ∧
      ∀ s : Nat, s < 4 →
        tl.filter (fun q => decide (q.2 = (s : Int) + 1)) =
          [[1, 2, 3, 4], [5, 6, 7, 8]].map (fun l => (l.getD s 0, (s : Int) + 1)) :=
  ⟨by decide, combination_per_participant [[1, 2, 3, 4], [5, 6, 7, 8]] (by decide)⟩

/-! ## The printed lists -/

/-- C7: every list handed to the printer has at most `N = 4` entries, its
totals never increase from one entry to the next, and it is the first
`min N length` entries of the sorted arrangement of the candidate vector built
from the gathered array of the run: a candidate left out has a total no larger
than any printed one. -/
theorem output_shape (file : Option String) (size : Nat) (t : String) (l : List (Int × Int))
    (h : (t, l) ∈ emitted (main file size)) :
    l.length ≤ N ∧ l.Pairwise (fun a b => b.2 ≤ a.2) ∧
    ∃ content pd locals tl, file = some content ∧
      ingest (dataLines content) = Except.ok pd ∧ allLocalCounts size pd = some locals ∧
      traffic_lights size (MPI_Gather locals) = some tl ∧
      (sortDescending tl).Perm tl ∧ (sortDescending tl).Pairwise pairGe ∧
      l = ((sortDescending tl).take (min N tl.length)).map (fun p => (p.2, p.1)) ∧
      ∀ c ∈ (sortDescending tl).drop (min N tl.length), ∀ e ∈ l, c.1 ≤ e.2 := by
  obtain ⟨content, pd, locals, tl, hfile, hi, hloc, htl, hl, -⟩ := emitted_elim file size t l h
  have hs := sortDescending_sorted tl
  have hlen : (sortDescending tl).length = tl.length := (sortDescending_perm tl).length_eq
  have htake : (sortDescending tl).take (min N tl.length) = (sortDescending tl).take N := by
    rw [← hlen, List.take_eq_take]
    simp
  refine ⟨?_, ?_, content, pd, locals, tl, hfile, hi, hloc, htl, sortDescending_perm tl, hs,
    ?_, ?_⟩
  · rw [hl, printed_length]; exact Nat.min_le_left _ _
  · rw [hl]
    unfold printed
    rw [List.pairwise_map]
    refine (hs.sublist (List.take_sublist N _)).imp ?_
    intro a b hab
    unfold pairGe at hab
    show b.1 ≤ a.1
    omega
  · rw [hl, htake]; rfl
  · intro c hc e he
    rw [hl] at he
    unfold printed at he
    obtain ⟨q, hq, rfl⟩ := List.mem_map.1 he
    rw [← htake] at hq
    have hsplit : ((sortDescending tl).take (min N tl.length) ++
        (sortDescending tl).drop (min N tl.length)).Pairwise pairGe := by
      rw [List.take_append_drop]; exact hs
    have := (List.pairwise_append.1 hsplit).2.2 q hq c hc
    unfold pairGe at this
    show c.1 ≤ q.1
    omega

theorem output_shape_witness :
    (("T1", [(2, 25), (1, 15), (4, 0), (4, 0)]) ∈ emitted (main (some sampleSource) 2)) ∧
    ([(2, 25), (1, 15), (4, 0), (4, 0)] : List (Int × Int)).length ≤ N ∧
    ([(2, 25), (1, 15), (4, 0), (4, 0)] : List (Int × Int)).Pairwise (fun a b => b.2 ≤ a.2) ∧
    ∃ content pd locals tl, some sampleSource = some content ∧
      ingest (dataLines content) = Except.ok pd ∧ allLocalCounts 2 pd = some locals ∧
      traffic_lights 2 (MPI_Gather locals) = some tl ∧
      (sortDescending tl).Perm tl ∧ (sortDescending tl).Pairwise pairGe ∧
      [(2, 25), (1, 15), (4, 0), (4, 0)] =
        ((sortDescending tl).take (min N tl.length)).map (fun p => (p.2, p.1)) ∧
      ∀ c ∈ (sortDescending tl).drop (min N tl.length),
        ∀ e ∈ ([(2, 25), (1, 15), (4, 0), (4, 0)] : List (Int × Int)), c.1 ≤ e.2 :=
  ⟨by decide, output_shape (some sampleSource) 2 "T1" [(2, 25), (1, 15), (4, 0), (4, 0)] (by decide)⟩

/-- C4 (refuted as stated): on the sample source with one participant the
signals 3 and 4 both have total 0 and signal 4 is printed before signal 3, so
the lower identifier is not placed first among equal totals. -/
theorem tie_break_lower_first_counterexample :
    ¬ (∀ t l, (t, l) ∈ emitted (main (some sampleSource) 1) →
        l.Pairwise (fun a b => b.2 ≤ a.2 ∧ (a.2 = b.2 → a.1 ≤ b.1))) := by
  intro h
  have := h "T1" [(2, 25), (1, 15), (4, 0), (3, 0)] (by decide)
  revert this
  decide

/-- C4 (amended): every printed list is ordered by total descending, and of
two entries with equal totals the one printed first has the higher (or the
same) signal identifier. -/
theorem ranking_order_higher_first (file : Option String) (size : Nat) (t : String)
    (l : List (Int × Int)) (h : (t, l) ∈ emitted (main file size)) :
    l.Pairwise (fun a b => b.2 ≤ a.2 ∧ (a.2 = b.2 → b.1 ≤ a.1)) := by
  obtain ⟨content, pd, locals, tl, -, -, -, -, hl, -⟩ := emitted_elim file size t l h
  rw [hl]
  unfold printed
  rw [List.pairwise_map]
  refine ((sortDescending_sorted tl).sublist (List.take_sublist N _)).imp ?_
  intro a b hab
  unfold pairGe at hab
  show b.1 ≤ a.1 ∧ (a.1 = b.1 → b.2 ≤ a.2)
  omega

theorem ranking_order_higher_first_witness :
    (("T2", [(2, 25), (1, 15), (4, 0), (3, 0)]) ∈ emitted (main (some sampleSource) 1)) ∧
    ([(2, 25), (1, 15), (4, 0), (3, 0)] : List (Int × Int)).Pairwise
      (fun a b => b.2 ≤ a.2 ∧ (a.2 = b.2 → b.1 ≤ a.1)) :=
  ⟨by decide,
    ranking_order_higher_first (some sampleSource) 1 "T2" [(2, 25), (1, 15), (4, 0), (3, 0)]
      (by decide)⟩

/-- C5 (refuted as stated): in the sample source only signal 1 occurs at `T2`,
yet the list printed for `T2` has four entries. -/
theorem truncation_no_padding_counterexample :
    ¬ (∀ t l, (t, l) ∈ emitted (main (some sampleSource) 1) →
        ∀ pd, ingest (dataLines sampleSource) = Except.ok pd →
          (signalsPresent pd t).length < N → l.length = (signalsPresent pd t).length) := by
  intro h
  have := h "T2" [(2, 25), (1, 15), (4, 0), (3, 0)] (by decide) sampleReadings (by decide)
    (by decide)
  revert this
  decide

/-- C5 (amended): with at least one participant every printed list has exactly
`N = 4` entries, however many signal identifiers occur at its time stamp. -/
theorem printed_list_has_four_entries (file : Option String) (size : Nat) (hsize : 1 ≤ size)
    (t : String) (l : List (Int × Int)) (h : (t, l) ∈ emitted (main file size)) :
    l.length = 4 := by
  obtain ⟨content, pd, locals, tl, -, -, -, htl, hl, -⟩ := emitted_elim file size t l h
  rw [hl, printed_length, traffic_lights_length _ _ _ htl]
  unfold N
  omega

theorem printed_list_has_four_entries_witness :
    1 ≤ 2 ∧ (("T2", [(2, 25), (1, 15), (4, 0), (4, 0)]) ∈ emitted (main (some sampleSource) 2)) ∧
    ([(2, 25), (1, 15), (4, 0), (4, 0)] : List (Int × Int)).length = 4 :=
  ⟨by decide, by decide,
    printed_list_has_four_entries (some sampleSource) 2 (by decide) "T2"
      [(2, 25), (1, 15), (4, 0), (4, 0)] (by decide)⟩

/-! ## Index safety -/

/-- C10: when every `light_id` of the grouped readings lies in 1..4, every
update `local_traffic_counts[light_id - 1] += car_count` hits one of the four
slots, so local aggregation ends with a four-slot vector and never takes the
out-of-bounds branch; and for any number `p` of participants and a gathered array of
`4 * p` values every read `global_traffic_counts[i * 4 + j]` with `i < p`,
`j < 4` is inside the array, so the candidate vector is built. -/
theorem accumulator_index_safety (g : GroupedData)
    (hg : ∀ p ∈ g, ∀ s ∈ p.2, 1 ≤ s.light_id ∧ s.light_id ≤ 4)
    (p : Nat) (global : List Int) (hlen : global.length = 4 * p) :
    (∀ v : List Int, v.length = 4 → ∀ q ∈ g, ∀ s ∈ q.2, ∀ x : Int,
        addAt v (s.light_id - 1) x ≠ none) ∧
    (∃ w, local_traffic_counts g = some w ∧ w.length = 4) ∧
    (∀ i j : Nat, i < p → j < 4 → (global.get? (i * 4 + j)).isSome = true) ∧
    (traffic_lights p global).isSome = true := by
  refine ⟨?_, foldl_accumulate_some g [0, 0, 0, 0] rfl hg, ?_, ?_⟩
  · intro v hv q hq s hs x
    obtain ⟨w, hw, -⟩ := addAt_some v s.light_id x hv (hg q hq s hs).1 (hg q hq s hs).2
    rw [hw]
    exact Option.some_ne_none w
  · intro i j hi hj
    have hlt : i * 4 + j < global.length := by omega
    simp [List.getElem?_eq_getElem hlt]
  · rw [traffic_lights_eq p global (le_of_eq hlen.symm)]
    rfl

theorem accumulator_index_safety_witness :
    (∀ p ∈ groupByTimestamp sampleReadings, ∀ s ∈ p.2, 1 ≤ s.light_id ∧ s.light_id ≤ 4) ∧
    ([15, 25, 0, 0, 0, 0, 0, 0] : List Int).length = 4 * 2 ∧
    ((∀ v : List Int, v.length = 4 → ∀ q ∈ groupByTimestamp sampleReadings, ∀ s ∈ q.2,
        ∀ x : Int, addAt v (s.light_id - 1) x ≠ none) ∧
    (∃ w, local_traffic_counts (groupByTimestamp sampleReadings) = some w ∧ w.length = 4) ∧
    (∀ i j : Nat, i < 2 → j < 4 →
      (([15, 25, 0, 0, 0, 0, 0, 0] : List Int).get? (i * 4 + j)).isSome = true) ∧
    (traffic_lights 2 [15, 25, 0, 0, 0, 0, 0, 0]).isSome = true) :=
  ⟨by decide, by decide,
    accumulator_index_safety (groupByTimestamp sampleReadings) (by decide) 2
      [15, 25, 0, 0, 0, 0, 0, 0] (by decide)⟩

/-! ## Order of the report -/

/-- C9: for a source whose lines all parse with signal identifiers in 1..4,
the master finishes and prints exactly one list per distinct time stamp of the
source, the time stamps being in strictly ascending order of `operator<` on
strings (lexicographic by character code), whatever their order in the file. -/
theorem timestamp_order (content : String) (size : Nat) (pd : List TrafficSignal)
    (hi : ingest (dataLines content) = Except.ok pd)
    (hwf : ∀ r ∈ pd, 1 ≤ r.light_id ∧ r.light_id ≤ 4) :
    ∃ out, main (some content) size = Outcome.finished out ∧
      (out.map Prod.fst).Pairwise (fun a b => keyLess a b = true) ∧
      (out.map Prod.fst).Nodup ∧
      ∀ t, t ∈ out.map Prod.fst ↔ ∃ r ∈ pd, r.time_stamp = t := by
  obtain ⟨locals, tl, -, -, hmain⟩ := run_finished content size pd hi hwf
  have hkeys : ((groupByTimestamp pd).map (fun p => (p.1, printed tl))).map Prod.fst =
      (groupByTimestamp pd).map Prod.fst := by
    rw [List.map_map]; rfl
  refine ⟨_, hmain, ?_, ?_, ?_⟩
  · rw [hkeys]; exact groupByTimestamp_keys_sorted pd
  · rw [hkeys]
    refine (groupByTimestamp_keys_sorted pd).imp ?_
    intro a b hab heq
    rw [heq, keyLess_irrefl] at hab
    exact Bool.false_ne_true hab
  · intro t
    rw [hkeys]
    exact groupByTimestamp_keys pd t

theorem timestamp_order_witness :
    ingest (dataLines "signal_id,timestamp,car_count\n1,T2,5\n2,T1,25\n1,T1,10\n") =
      Except.ok [{ light_id := 1, car_count := 5, time_stamp := "T2" },
        { light_id := 2, car_count := 25, time_stamp := "T1" },
        { light_id := 1, car_count := 10, time_stamp := "T1" }] ∧
    (∀ r ∈ [({ light_id := 1, car_count := 5, time_stamp := "T2" } : TrafficSignal),
        { light_id := 2, car_count := 25, time_stamp := "T1" },
        { light_id := 1, car_count := 10, time_stamp := "T1" }],
      1 ≤ r.light_id ∧ r.light_id ≤ 4) ∧
    ∃ out, main (some "signal_id,timestamp,car_count\n1,T2,5\n2,T1,25\n1,T1,10\n") 2 =
        Outcome.finished out ∧
      (out.map Prod.fst).Pairwise (fun a b => keyLess a b = true) ∧
      (out.map Prod.fst).Nodup ∧
      ∀ t, t ∈ out.map Prod.fst ↔
        ∃ r ∈ [({ light_id := 1, car_count := 5, time_stamp := "T2" } : TrafficSignal),
          { light_id := 2, car_count := 25, time_stamp := "T1" },
          { light_id := 1, car_count := 10, time_stamp := "T1" }], r.time_stamp = t :=
  ⟨by decide, by decide,
    timestamp_order "signal_id,timestamp,car_count\n1,T2,5\n2,T1,25\n1,T1,10\n" 2 _
      (by decide) (by decide)⟩

/-! ## Malformed lines -/

/-- C8 (refuted as stated): the data line `1,T1,10,x` has four fields, yet
the loop body makes a reading of it and the run prints a ranked list. -/
theorem malformed_abort_counterexample :
    ¬ (∀ (content : String) (size : Nat) (l : List Char), l ∈ dataLines content →
        specMalformed l = true →
          (∃ e, parseLine l = Except.error e) ∧ emitted (main (some content) size) = []) := by
  intro h
  obtain ⟨⟨e, he⟩, -⟩ := h "signal_id,timestamp,car_count\n1,T1,10,x\n" 1 "1,T1,10,x".data
    (by decide) (by decide)
  have hp : parseLine "1,T1,10,x".data =
      Except.ok { light_id := 1, car_count := 10, time_stamp := "T1" } := by decide
  rw [hp] at he
  cases he

/-- C8 (amended): when `std::stoi` throws on the first field of some data
line, or on the third field of a data line with at least three fields (no
digit after optional white space and an optional sign, or a value outside
`int`), the loop body fails on that line, the run ends by an uncaught
exception and nothing is printed. -/
theorem rejected_line_aborts (content : String) (size : Nat) (l : List Char)
    (hl : l ∈ dataLines content)
    (hbad : stoiThrows ((fields l).getD 0 []) = true ∨
      (3 ≤ (fields l).length ∧ stoiThrows ((fields l).getD 2 []) = true)) :
    (∃ e, parseLine l = Except.error e) ∧
    (∃ e, main (some content) size = Outcome.terminated e) ∧
    emitted (main (some content) size) = [] := by
  have hparse : ∃ e, parseLine l = Except.error e := by
    rcases hbad with h0 | ⟨h3, h2⟩
    · obtain ⟨e, he⟩ := (stoiThrows_iff _).1 h0
      exact ⟨e, parseLine_error_of_first l e he⟩
    · obtain ⟨e, he⟩ := (stoiThrows_iff _).1 h2
      rw [parseLine_three_fields l h3, he]
      cases stoi ((fields l).getD 0 []) with
      | error e0 => exact ⟨e0, rfl⟩
      | ok id => exact ⟨e, rfl⟩
  obtain ⟨e, he⟩ := hparse
  obtain ⟨e', he'⟩ := ingest_error_of_mem (dataLines content) l hl e he
  have hmain : main (some content) size = Outcome.terminated e' := by
    simp only [main, he']
  exact ⟨⟨e, he⟩, ⟨e', hmain⟩, by rw [hmain]; rfl⟩

theorem rejected_line_aborts_witness :
    "abc,T1,10".data ∈ dataLines "signal_id,timestamp,car_count\n1,T1,10\nabc,T1,10\n" ∧
    (stoiThrows ((fields "abc,T1,10".data).getD 0 []) = true ∨
      (3 ≤ (fields "abc,T1,10".data).length ∧
        stoiThrows ((fields "abc,T1,10".data).getD 2 []) = true)) ∧
    (∃ e, parseLine "abc,T1,10".data = Except.error e) ∧
    (∃ e, main (some "signal_id,timestamp,car_count\n1,T1,10\nabc,T1,10\n") 2 =
      Outcome.terminated e) ∧
    emitted (main (some "signal_id,timestamp,car_count\n1,T1,10\nabc,T1,10\n") 2) = [] :=
  ⟨by decide, by decide,
    rejected_line_aborts "signal_id,timestamp,car_count\n1,T1,10\nabc,T1,10\n" 2
      "abc,T1,10".data (by decide) (by decide)⟩

/-- The further shapes of malformed lines: a numeric prefix is read as the
number, and a line with two fields reuses its second field as the count; only
a line whose last token has no leading digit fails. -/
theorem parseLine_shapes :
    parseLine "12abc,T1,10".data =
      Except.ok { light_id := 12, car_count := 10, time_stamp := "T1" } ∧
    parseLine "1,5".data = Except.ok { light_id := 1, car_count := 5, time_stamp := "5" } ∧
    parseLine "1,T1".data = Except.error StoiError.invalid_argument ∧
    parseLine "".data = Except.error StoiError.invalid_argument ∧
    parseLine "1,T1,99999999999".data = Except.error StoiError.out_of_range := by
  decide

/-! ## Evaluations on the sample source -/

/-- C1 (the code departs from the claim): on the sample source with one
participant both printed lists give signal 1 the total 15, the sum over both
time stamps, while the exact sums are 10 under `T1` and 5 under `T2`. -/
theorem totals_ignore_timestamp :
    ingest (dataLines sampleSource) = Except.ok sampleReadings ∧
    main (some sampleSource) 1 =
      Outcome.finished [("T1", [(2, 25), (1, 15), (4, 0), (3, 0)]),
        ("T2", [(2, 25), (1, 15), (4, 0), (3, 0)])] ∧
    exactSum sampleReadings "T1" 1 = 10 ∧ exactSum sampleReadings "T2" 1 = 5 := by
  decide

/-- C2 (the code departs from the claim): after the broadcast loop the map of
the participant of rank 1 is still empty, while the master holds two groups. -/
theorem worker_map_stays_empty :
    grouped_data 1 sampleReadings = [] ∧
    grouped_data 0 sampleReadings =
      [("T1", [{ light_id := 1, car_count := 10, time_stamp := "T1" },
               { light_id := 2, car_count := 25, time_stamp := "T1" }]),
       ("T2", [{ light_id := 1, car_count := 5, time_stamp := "T2" }])] := by
  decide

/-- C3 (the code departs from the claim): on the sample readings the master
issues nine broadcasts and the gather, the participant of rank 1 issues one
broadcast and the gather. -/
theorem collective_sequences_differ :
    collectiveOps 0 sampleReadings =
      [Collective.bcast_num_groups,
       Collective.bcast_group_size, Collective.bcast_light_id, Collective.bcast_car_count,
       Collective.bcast_light_id, Collective.bcast_car_count,
       Collective.bcast_group_size, Collective.bcast_light_id, Collective.bcast_car_count,
       Collective.gather] ∧
    collectiveOps 1 sampleReadings = [Collective.bcast_num_groups, Collective.gather] := by
  decide

end TrafficMPI
